import Mathlib

/-!
# Verification of the windowed-XOR block cipher

Shallow embedding of the cipher core (`src/key.rs`, `src/algorithm.rs`,
`src/alg2.rs`).  Byte buffers are `List Nat` with every element `< 256`;
machine words of `ws` bytes are `Nat` values `< 2 ^ (8 * ws)`, obtained by
reading `ws` consecutive bytes in native (little-endian) order, matching
`to_ne_bytes` / `from_ne_bytes` and the pointer reinterpretations on the
x86-64 target the crate is built for.  `usize` is modelled as `Nat`
(64-bit target: `u64::try_into::<usize>` never fails).
-/

namespace Encryption

/-- The `n` native (little-endian) bytes of the value `v`
(`v.to_ne_bytes()`), least significant first. -/
def toLEBytes : Nat → Nat → List Nat
  | 0, _ => []
  | n + 1, v => (v % 256) :: toLEBytes n (v / 256)

/-- Recombine little-endian bytes into a value (`from_ne_bytes`). -/
def fromLEBytes : List Nat → Nat
  | [] => 0
  | b :: bs => b + 256 * fromLEBytes bs

/-- Fuel-driven chunker behind `wordsOfBytes` (structural recursion so the
kernel can evaluate it; the fuel is the buffer length, enough since each
step consumes at least one byte). -/
def wordsOfBytesAux (ws : Nat) : Nat → List Nat → List Nat
  | 0, _ => []
  | fuel + 1, bs =>
    if 0 < ws ∧ ws ≤ bs.length then
      fromLEBytes (bs.take ws) :: wordsOfBytesAux ws fuel (bs.drop ws)
    else []

/-- Reinterpret a byte buffer as an array of `ws`-byte words
(`align_to::<W>` / `slice::from_raw_parts` on an aligned buffer): the
buffer is consumed `ws` bytes at a time, a trailing partial word is
dropped, yielding `⌊len / ws⌋` words. -/
def wordsOfBytes (ws : Nat) (bs : List Nat) : List Nat :=
  wordsOfBytesAux ws bs.length bs

/-- Serialize words back to the byte buffer they occupy (the in-place view:
word `i` occupies bytes `i*ws .. i*ws+ws`). -/
def bytesOfWords (ws : Nat) (l : List Nat) : List Nat :=
  (l.map (toLEBytes ws)).flatten

/-- Byte `i` of a value (`v.to_ne_bytes()[i]` on the little-endian target). -/
def byteAt (v i : Nat) : Nat :=
  v / 256 ^ i % 256

/-! ## Key material (`src/key.rs`)

A `Key<N>` wraps an `N`-byte, 8-byte-aligned buffer.  We model it as its
byte list; `N` is the list's length.  The word types implementing `Word`
are `u8`/`u16`/`u32`/`u64`, whose size (= alignment on this target) is
`ws ∈ {1,2,4,8}`; theorems quantify over any `0 < ws`. -/

namespace Key

/-- `Key::new`: `pub const fn new(key: [u8; N]) -> Self { Self(key) }` —
stores the bytes verbatim, with no check and no failure path. -/
def new (key : List Nat) : List Nat :=
  key

/-- `Key::check_element_length::<W, L>`: returns `key_elements = N / size_of::<W>()`,
panicking (`none`) when `L > key_elements`. -/
def check_element_length (N ws L : Nat) : Option Nat :=
  let key_elements := N / ws
  if L > key_elements then none else some key_elements

/-- `Key::subkey::<W, L>(word_offset)`: after `check_element_length`, reads
`L` contiguous `W`-words starting at word position
`word_offset % max_index` of the buffer, `max_index = (key_elements + 1) - L`. -/
def subkey (key : List Nat) (ws L word_offset : Nat) : Option (List Nat) :=
  match check_element_length key.length ws L with
  | none => none
  | some key_elements =>
    let max_index := (key_elements + 1) - L
    let offset := word_offset % max_index
    some ((wordsOfBytes ws (key.drop (offset * ws))).take L)

/-- `Key::as_words::<W>`: reinterprets the whole buffer as a `W`-slice of
`N / size_of::<W>()` elements, truncating a trailing partial element. -/
def as_words (key : List Nat) (ws : Nat) : List Nat :=
  wordsOfBytes ws key

end Key

/-! ## Index diffusion hash (`src/alg2.rs`) -/

/-- The fixed 256-entry substitution table (the AES S-box), row by row as
in the source. -/
def S_BOX : List Nat :=
  [0x63, 0x7c, 0x77, 0x7b, 0xf2, 0x6b, 0x6f, 0xc5, 0x30, 0x01, 0x67, 0x2b, 0xfe, 0xd7, 0xab, 0x76,
   0xca, 0x82, 0xc9, 0x7d, 0xfa, 0x59, 0x47, 0xf0, 0xad, 0xd4, 0xa2, 0xaf, 0x9c, 0xa4, 0x72, 0xc0,
   0xb7, 0xfd, 0x93, 0x26, 0x36, 0x3f, 0xf7, 0xcc, 0x34, 0xa5, 0xe5, 0xf1, 0x71, 0xd8, 0x31, 0x15,
   0x04, 0xc7, 0x23, 0xc3, 0x18, 0x96, 0x05, 0x9a, 0x07, 0x12, 0x80, 0xe2, 0xeb, 0x27, 0xb2, 0x75,
   0x09, 0x83, 0x2c, 0x1a, 0x1b, 0x6e, 0x5a, 0xa0, 0x52, 0x3b, 0xd6, 0xb3, 0x29, 0xe3, 0x2f, 0x84,
   0x53, 0xd1, 0x00, 0xed, 0x20, 0xfc, 0xb1, 0x5b, 0x6a, 0xcb, 0xbe, 0x39, 0x4a, 0x4c, 0x58, 0xcf,
   0xd0, 0xef, 0xaa, 0xfb, 0x43, 0x4d, 0x33, 0x85, 0x45, 0xf9, 0x02, 0x7f, 0x50, 0x3c, 0x9f, 0xa8,
   0x51, 0xa3, 0x40, 0x8f, 0x92, 0x9d, 0x38, 0xf5, 0xbc, 0xb6, 0xda, 0x21, 0x10, 0xff, 0xf3, 0xd2,
   0xcd, 0x0c, 0x13, 0xec, 0x5f, 0x97, 0x44, 0x17, 0xc4, 0xa7, 0x7e, 0x3d, 0x64, 0x5d, 0x19, 0x73,
   0x60, 0x81, 0x4f, 0xdc, 0x22, 0x2a, 0x90, 0x88, 0x46, 0xee, 0xb8, 0x14, 0xde, 0x5e, 0x0b, 0xdb,
   0xe0, 0x32, 0x3a, 0x0a, 0x49, 0x06, 0x24, 0x5c, 0xc2, 0xd3, 0xac, 0x62, 0x91, 0x95, 0xe4, 0x79,
   0xe7, 0xc8, 0x37, 0x6d, 0x8d, 0xd5, 0x4e, 0xa9, 0x6c, 0x56, 0xf4, 0xea, 0x65, 0x7a, 0xae, 0x08,
   0xba, 0x78, 0x25, 0x2e, 0x1c, 0xa6, 0xb4, 0xc6, 0xe8, 0xdd, 0x74, 0x1f, 0x4b, 0xbd, 0x8b, 0x8a,
   0x70, 0x3e, 0xb5, 0x66, 0x48, 0x03, 0xf6, 0x0e, 0x61, 0x35, 0x57, 0xb9, 0x86, 0xc1, 0x1d, 0x9e,
   0xe1, 0xf8, 0x98, 0x11, 0x69, 0xd9, 0x8e, 0x94, 0x9b, 0x1e, 0x87, 0xe9, 0xce, 0x55, 0x28, 0xdf,
   0x8c, 0xa1, 0x89, 0x0d, 0xbf, 0xe6, 0x42, 0x68, 0x41, 0x99, 0x2d, 0x0f, 0xb0, 0x54, 0xbb, 0x16]

/-- `S_BOX[b as usize]`. -/
def sbox (b : Nat) : Nat :=
  S_BOX.getD b 0

/-- `alg2::hash(index: u64) -> u64`: decompose the index into its 8 native
(little-endian) bytes, pass each through the S-box, recompose. -/
def hash64 (index : Nat) : Nat :=
  fromLEBytes ((toLEBytes 8 index).map sbox)

/-- Inverse of the substitution table (verification artifact used to show
the table is a permutation; not part of the source). -/
def INV_S_BOX : List Nat :=
  [0x52, 0x09, 0x6a, 0xd5, 0x30, 0x36, 0xa5, 0x38, 0xbf, 0x40, 0xa3, 0x9e, 0x81, 0xf3, 0xd7, 0xfb,
   0x7c, 0xe3, 0x39, 0x82, 0x9b, 0x2f, 0xff, 0x87, 0x34, 0x8e, 0x43, 0x44, 0xc4, 0xde, 0xe9, 0xcb,
   0x54, 0x7b, 0x94, 0x32, 0xa6, 0xc2, 0x23, 0x3d, 0xee, 0x4c, 0x95, 0x0b, 0x42, 0xfa, 0xc3, 0x4e,
   0x08, 0x2e, 0xa1, 0x66, 0x28, 0xd9, 0x24, 0xb2, 0x76, 0x5b, 0xa2, 0x49, 0x6d, 0x8b, 0xd1, 0x25,
   0x72, 0xf8, 0xf6, 0x64, 0x86, 0x68, 0x98, 0x16, 0xd4, 0xa4, 0x5c, 0xcc, 0x5d, 0x65, 0xb6, 0x92,
   0x6c, 0x70, 0x48, 0x50, 0xfd, 0xed, 0xb9, 0xda, 0x5e, 0x15, 0x46, 0x57, 0xa7, 0x8d, 0x9d, 0x84,
   0x90, 0xd8, 0xab, 0x00, 0x8c, 0xbc, 0xd3, 0x0a, 0xf7, 0xe4, 0x58, 0x05, 0xb8, 0xb3, 0x45, 0x06,
   0xd0, 0x2c, 0x1e, 0x8f, 0xca, 0x3f, 0x0f, 0x02, 0xc1, 0xaf, 0xbd, 0x03, 0x01, 0x13, 0x8a, 0x6b,
   0x3a, 0x91, 0x11, 0x41, 0x4f, 0x67, 0xdc, 0xea, 0x97, 0xf2, 0xcf, 0xce, 0xf0, 0xb4, 0xe6, 0x73,
   0x96, 0xac, 0x74, 0x22, 0xe7, 0xad, 0x35, 0x85, 0xe2, 0xf9, 0x37, 0xe8, 0x1c, 0x75, 0xdf, 0x6e,
   0x47, 0xf1, 0x1a, 0x71, 0x1d, 0x29, 0xc5, 0x89, 0x6f, 0xb7, 0x62, 0x0e, 0xaa, 0x18, 0xbe, 0x1b,
   0xfc, 0x56, 0x3e, 0x4b, 0xc6, 0xd2, 0x79, 0x20, 0x9a, 0xdb, 0xc0, 0xfe, 0x78, 0xcd, 0x5a, 0xf4,
   0x1f, 0xdd, 0xa8, 0x33, 0x88, 0x07, 0xc7, 0x31, 0xb1, 0x12, 0x10, 0x59, 0x27, 0x80, 0xec, 0x5f,
   0x60, 0x51, 0x7f, 0xa9, 0x19, 0xb5, 0x4a, 0x0d, 0x2d, 0xe5, 0x7a, 0x9f, 0x93, 0xc9, 0x9c, 0xef,
   0xa0, 0xe0, 0x3b, 0x4d, 0xae, 0x2a, 0xf5, 0xb0, 0xc8, 0xeb, 0xbb, 0x3c, 0x83, 0x53, 0x99, 0x61,
   0x17, 0x2b, 0x04, 0x7e, 0xba, 0x77, 0xd6, 0x26, 0xe1, 0x69, 0x14, 0x63, 0x55, 0x21, 0x0c, 0x7d]

/-- Lookup in the inverse table. -/
def invSbox (b : Nat) : Nat :=
  INV_S_BOX.getD b 0

/-! ## Generic cipher engine (`src/algorithm.rs`), `word_xor` path

`GenericCipher` holds a hash function, a key reference and the secret
`index_key`.  `cipher_block::<L, A, W>` is modelled as a function from the
block's byte buffer to `(completed?, final buffer)`: a `panic!`/`assert!`
aborts before any write, leaving the buffer as it was. -/

/-- The engine state: `hash`, `key`, `index_key` (`GenericCipher::new`). -/
structure GenericCipher where
  hash : Nat → Nat
  key : List Nat
  index_key : Nat

/-- The mutation loop `for i in 0..buf.len() { buf[i] ^= key[i] }` over the
word view of the block. -/
def xorLoop (buf key : List Nat) : List Nat :=
  (List.range buf.length).foldl (fun b i => b.set i (Nat.xor (b.getD i 0) (key.getD i 0))) buf

/-- `GenericCipher::cipher_block::<L, A, W>(index, block)` (the `word_xor`
feature path, the mode the spec describes).  Steps, in source order:
check `BLOCK_BYTES / size_of::<W>() == L` (panic otherwise); assert
`align_of::<W>() >= A` (for the `Word` impls `u8..u64`, alignment equals
size `ws` on this target); `index = index ^ self.index_key`;
`index = (self.hash)(index)`; `index.to_usize()` (total, 64-bit target);
`key.subkey::<W, L>(index)` (panic if the subkey is longer than the key);
then XOR the subkey into the word view of the block.  Returns
`(false, block)` when a panic fires before mutation, `(true, result)` on
completion. -/
def cipher_block (c : GenericCipher) (L A ws index : Nat) (block : List Nat) :
    (Bool × List Nat) :=
  if block.length / ws ≠ L then (false, block)
  else if ¬ A ≤ ws then (false, block)
  else
    match Key.subkey c.key ws L (c.hash (Nat.xor index c.index_key)) with
    | none => (false, block)
    | some sub =>
      (true, bytesOfWords ws (xorLoop (wordsOfBytes ws block) sub)
        ++ block.drop (ws * (block.length / ws)))

/-! ## Instantiation `Algorithm2` (`src/alg2.rs`): 248-byte blocks, 64-bit
index hashed by `hash`, `W = u64`, `L = 31`, `A = 8`. -/

def BLOCK_SIZE : Nat := 248

def ELEMENT_COUNT : Nat := 31

/-- `Algorithm2::new(key, index_key)` wraps `GenericCipher::new(hash, key, index_key)`. -/
def Algorithm2.new (key : List Nat) (index_key : Nat) : GenericCipher :=
  { hash := hash64, key := key, index_key := index_key }

/-- `Algorithm2::cipher_block` forwards to
`GenericCipher::cipher_block::<31, 8, u64>`. -/
def Algorithm2.cipher_block (c : GenericCipher) (index : Nat) (block : List Nat) :
    (Bool × List Nat) :=
  Encryption.cipher_block c ELEMENT_COUNT 8 8 index block

/-! ## `repr(C)` struct layout

`IndexedBlock` is `#[repr(C, align(8))] struct { index: u64, data: [u64; 31] }`.
Its size and alignment follow the C representation rules: fields are laid
out in order, each at the next multiple of its alignment; the struct's
alignment is the maximum of the field alignments and the `align(..)`
attribute; the size is the end offset rounded up to the alignment. -/

/-- Round `offset` up to the next multiple of `align`. -/
def alignUp (offset align : Nat) : Nat :=
  if align = 0 then offset else ((offset + align - 1) / align) * align

/-- `repr(C, align(attrAlign))` layout of a field list (size, align) pairs:
returns the struct's (size, align). -/
def reprCLayout (fields : List (Nat × Nat)) (attrAlign : Nat) : Nat × Nat :=
  let structAlign := fields.foldl (fun a f => max a f.2) attrAlign
  let endOffset := fields.foldl (fun off f => alignUp off f.2 + f.1) 0
  (alignUp endOffset structAlign, structAlign)

/-- Concrete engine instance used only by the witness theorems: identity
hash, a 6-byte key, index offset 7. -/
def exCipher : GenericCipher :=
  { hash := fun x => x, key := [1, 2, 3, 4, 5, 6], index_key := 7 }

/-- The fields of `IndexedBlock`: a `u64` (size 8, align 8) followed by
`[u64; 31]` (size 248, align 8). -/
def IndexedBlock.fields : List (Nat × Nat) :=
  [(8, 8), (8 * ELEMENT_COUNT, 8)]

/-! ## Basic lemmas about the byte/word conversions -/

theorem wordsOfBytesAux_fuel (ws : Nat) :
    ∀ fuel₁ fuel₂ bs, bs.length ≤ fuel₁ → bs.length ≤ fuel₂ →
      wordsOfBytesAux ws fuel₁ bs = wordsOfBytesAux ws fuel₂ bs := by
  intro fuel₁
  induction fuel₁ with
  | zero =>
    intro fuel₂ bs h1 h2
    have : bs = [] := List.eq_nil_of_length_eq_zero (by omega)
    subst this
    cases fuel₂ with
    | zero => rfl
    | succ g =>
      rw [wordsOfBytesAux, wordsOfBytesAux, if_neg (by simp only [List.length_nil]; omega)]
  | succ f ih =>
    intro fuel₂ bs h1 h2
    cases fuel₂ with
    | zero =>
      have : bs = [] := List.eq_nil_of_length_eq_zero (by omega)
      subst this
      rw [wordsOfBytesAux, wordsOfBytesAux, if_neg (by simp only [List.length_nil]; omega)]
    | succ g =>
      rw [wordsOfBytesAux, wordsOfBytesAux]
      by_cases hc : 0 < ws ∧ ws ≤ bs.length
      · rw [if_pos hc, if_pos hc,
          ih g (bs.drop ws) (by simp only [List.length_drop]; omega)
            (by simp only [List.length_drop]; omega)]
      · rw [if_neg hc, if_neg hc]

/-- One-step unfolding of `wordsOfBytes`. -/
theorem wordsOfBytes_eq (ws : Nat) (bs : List Nat) :
    wordsOfBytes ws bs =
      if 0 < ws ∧ ws ≤ bs.length then
        fromLEBytes (bs.take ws) :: wordsOfBytes ws (bs.drop ws)
      else [] := by
  by_cases hc : 0 < ws ∧ ws ≤ bs.length
  · rw [if_pos hc]
    have hlen : 0 < bs.length := by omega
    obtain ⟨n, hn⟩ : ∃ n, bs.length = n + 1 := ⟨bs.length - 1, by omega⟩
    rw [wordsOfBytes, wordsOfBytes, hn, wordsOfBytesAux, if_pos hc]
    rw [wordsOfBytesAux_fuel ws n (bs.drop ws).length (bs.drop ws)
      (by simp only [List.length_drop]; omega) (le_refl _)]
  · rw [if_neg hc, wordsOfBytes]
    cases hlen : bs.length with
    | zero => rfl
    | succ n =>
      rw [wordsOfBytesAux, if_neg hc]

/-- Induction along the chunking structure of `wordsOfBytes`. -/
theorem wordsOfBytes_induction (ws : Nat) (motive : List Nat → Prop)
    (case1 : ∀ bs, 0 < ws ∧ ws ≤ bs.length → motive (bs.drop ws) → motive bs)
    (case2 : ∀ bs, ¬(0 < ws ∧ ws ≤ bs.length) → motive bs) :
    ∀ bs, motive bs := by
  suffices h : ∀ n bs, bs.length = n → motive bs by
    exact fun bs => h bs.length bs rfl
  intro n
  induction n using Nat.strong_induction_on with
  | _ n ih =>
    intro bs hn
    by_cases hc : 0 < ws ∧ ws ≤ bs.length
    · refine case1 bs hc (ih (bs.drop ws).length ?_ (bs.drop ws) rfl)
      simp only [List.length_drop]
      omega
    · exact case2 bs hc

@[simp] theorem toLEBytes_length (n v : Nat) : (toLEBytes n v).length = n := by
  induction n generalizing v with
  | zero => rfl
  | succ n ih => simp [toLEBytes, ih]

theorem toLEBytes_lt (n v : Nat) : ∀ b ∈ toLEBytes n v, b < 256 := by
  induction n generalizing v with
  | zero => simp [toLEBytes]
  | succ n ih =>
    intro b hb
    simp only [toLEBytes, List.mem_cons] at hb
    rcases hb with h | h
    · omega
    · exact ih _ _ h

theorem fromLEBytes_toLEBytes (n v : Nat) (hv : v < 2 ^ (8 * n)) :
    fromLEBytes (toLEBytes n v) = v := by
  induction n generalizing v with
  | zero =>
    simp only [Nat.mul_zero, pow_zero, Nat.lt_one_iff] at hv
    simp [toLEBytes, fromLEBytes, hv]
  | succ n ih =>
    have h256 : (256 : Nat) = 2 ^ 8 := by norm_num
    have hdiv : v / 256 < 2 ^ (8 * n) := by
      rw [h256, Nat.div_lt_iff_lt_mul (by positivity), ← pow_add]
      have : 8 * n + 8 = 8 * (n + 1) := by ring
      rw [this]
      exact hv
    simp only [toLEBytes, fromLEBytes, ih _ hdiv]
    omega

theorem toLEBytes_fromLEBytes (bs : List Nat) (hb : ∀ b ∈ bs, b < 256) :
    toLEBytes bs.length (fromLEBytes bs) = bs := by
  induction bs with
  | nil => rfl
  | cons b bs ih =>
    have hblt : b < 256 := hb b (by simp)
    simp only [List.length_cons, toLEBytes, fromLEBytes]
    have h1 : (b + 256 * fromLEBytes bs) % 256 = b := by omega
    have h2 : (b + 256 * fromLEBytes bs) / 256 = fromLEBytes bs := by omega
    rw [h1, h2, ih fun x hx => hb x (by simp [hx])]

theorem toLEBytes_fromLEBytes' (n : Nat) (bs : List Nat) (hn : bs.length = n)
    (hb : ∀ b ∈ bs, b < 256) :
    toLEBytes n (fromLEBytes bs) = bs := by
  subst hn
  exact toLEBytes_fromLEBytes bs hb

theorem fromLEBytes_lt (bs : List Nat) (hb : ∀ b ∈ bs, b < 256) :
    fromLEBytes bs < 2 ^ (8 * bs.length) := by
  induction bs with
  | nil => simp [fromLEBytes]
  | cons b bs ih =>
    have hblt : b < 256 := hb b (by simp)
    have htail : fromLEBytes bs < 2 ^ (8 * bs.length) :=
      ih fun x hx => hb x (by simp [hx])
    simp only [fromLEBytes, List.length_cons]
    have : 8 * (bs.length + 1) = 8 * bs.length + 8 := by ring
    rw [this, pow_add]
    have h256 : (2 : Nat) ^ 8 = 256 := by norm_num
    nlinarith [htail, hblt]

theorem xor_lt_two_pow {a b n : Nat} (ha : a < 2 ^ n) (hb : b < 2 ^ n) :
    Nat.xor a b < 2 ^ n :=
  Nat.bitwise_lt ha hb

theorem wordsOfBytes_length (ws : Nat) (bs : List Nat) :
    (wordsOfBytes ws bs).length = bs.length / ws := by
  induction bs using wordsOfBytes_induction ws with
  | case1 bs h ih =>
    rw [wordsOfBytes_eq, if_pos h]
    simp only [List.length_cons, ih, List.length_drop]
    rw [Nat.div_eq bs.length ws, if_pos h]
  | case2 bs h =>
    rw [wordsOfBytes_eq, if_neg h]
    rw [Nat.div_eq bs.length ws, if_neg h]
    rfl

theorem wordsOfBytes_lt (ws : Nat) (bs : List Nat) (hb : ∀ b ∈ bs, b < 256) :
    ∀ w ∈ wordsOfBytes ws bs, w < 2 ^ (8 * ws) := by
  induction bs using wordsOfBytes_induction ws with
  | case1 bs h ih =>
    rw [wordsOfBytes_eq, if_pos h]
    intro w hw
    rcases List.mem_cons.mp hw with rfl | hmem
    · have hlen : (bs.take ws).length = ws := by
        simp only [List.length_take]
        omega
      have := fromLEBytes_lt (bs.take ws) fun x hx => hb x (List.mem_of_mem_take hx)
      rwa [hlen] at this
    · exact ih (fun x hx => hb x (List.mem_of_mem_drop hx)) w hmem
  | case2 bs h =>
    rw [wordsOfBytes_eq, if_neg h]
    intro w hw
    simp at hw

/-- Word `i` of the reinterpreted buffer is the value of bytes
`i*ws .. i*ws + ws`. -/
theorem wordsOfBytes_getD (ws : Nat) (bs : List Nat) (i : Nat) (hws : 0 < ws)
    (hi : (i + 1) * ws ≤ bs.length) :
    (wordsOfBytes ws bs).getD i 0 = fromLEBytes ((bs.drop (i * ws)).take ws) := by
  induction i generalizing bs with
  | zero =>
    rw [wordsOfBytes_eq, if_pos ⟨hws, by omega⟩]
    simp
  | succ i ih =>
    have e1 : (i + 1 + 1) * ws = (i + 1) * ws + ws := by ring
    have e2 : (i + 1) * ws = i * ws + ws := by ring
    rw [wordsOfBytes_eq, if_pos ⟨hws, by omega⟩]
    simp only [List.getD_cons_succ]
    rw [ih (bs.drop ws) (by simp only [List.length_drop]; omega)]
    rw [List.drop_drop]
    have : ws + i * ws = (i + 1) * ws := by ring
    rw [this]

/-- Reading back a serialized word list (with a short tail appended)
recovers the words. -/
theorem wordsOfBytes_bytesOfWords (ws : Nat) (l t : List Nat) (hws : 0 < ws)
    (hl : ∀ w ∈ l, w < 2 ^ (8 * ws)) (ht : t.length < ws) :
    wordsOfBytes ws (bytesOfWords ws l ++ t) = l := by
  induction l with
  | nil =>
    simp only [bytesOfWords, List.map_nil, List.flatten_nil, List.nil_append]
    rw [wordsOfBytes_eq, if_neg (by omega)]
  | cons w l ih =>
    have hwlt : w < 2 ^ (8 * ws) := hl w (by simp)
    simp only [bytesOfWords, List.map_cons, List.flatten_cons, List.append_assoc] at ih ⊢
    have hlen : (toLEBytes ws w).length = ws := toLEBytes_length ws w
    rw [wordsOfBytes_eq, if_pos ⟨hws, by simp only [List.length_append, hlen]; omega⟩]
    rw [List.take_left' hlen, List.drop_left' hlen]
    rw [fromLEBytes_toLEBytes ws w hwlt]
    exact congrArg _ (ih fun x hx => hl x (by simp [hx]))

/-- Serializing the word view and re-appending the dropped tail recovers
the byte buffer. -/
theorem bytesOfWords_wordsOfBytes (ws : Nat) (bs : List Nat)
    (hb : ∀ b ∈ bs, b < 256) :
    bytesOfWords ws (wordsOfBytes ws bs) ++ bs.drop (ws * (bs.length / ws)) = bs := by
  induction bs using wordsOfBytes_induction ws with
  | case1 bs h ih =>
    rw [wordsOfBytes_eq, if_pos h]
    simp only [bytesOfWords, List.map_cons, List.flatten_cons] at ih ⊢
    have htake : (bs.take ws).length = ws := by
      simp only [List.length_take]
      omega
    rw [toLEBytes_fromLEBytes' ws (bs.take ws) htake fun x hx => hb x (List.mem_of_mem_take hx)]
    rw [Nat.div_eq bs.length ws, if_pos h]
    have hrec := ih fun x hx => hb x (List.mem_of_mem_drop hx)
    rw [List.length_drop] at hrec
    rw [Nat.mul_add, Nat.mul_one, Nat.add_comm (ws * ((bs.length - ws) / ws)) ws,
      ← List.drop_drop, List.append_assoc, hrec, List.take_append_drop]
  | case2 bs h =>
    rw [wordsOfBytes_eq, if_neg h]
    rw [Nat.div_eq bs.length ws, if_neg h]
    simp [bytesOfWords]

/-- Every byte of a serialized word list is a byte. -/
theorem bytesOfWords_bytes_lt (ws : Nat) (l : List Nat) :
    ∀ b ∈ bytesOfWords ws l, b < 256 := by
  intro b hb
  simp only [bytesOfWords, List.mem_flatten, List.mem_map] at hb
  obtain ⟨bs, ⟨w, _, rfl⟩, hbmem⟩ := hb
  exact toLEBytes_lt ws w b hbmem

theorem bytesOfWords_length (ws : Nat) (l : List Nat) :
    (bytesOfWords ws l).length = l.length * ws := by
  induction l with
  | nil => simp [bytesOfWords]
  | cons w l ih =>
    simp only [bytesOfWords, List.map_cons, List.flatten_cons, List.length_append,
      toLEBytes_length, List.length_cons] at ih ⊢
    have : (l.length + 1) * ws = l.length * ws + ws := by ring
    omega

/-- The indexed for-loop is pointwise XOR of the two buffers. -/
theorem xorLoop_eq_zipWith (buf key : List Nat) (hlen : buf.length = key.length) :
    xorLoop buf key = List.zipWith Nat.xor buf key := by
  suffices h : ∀ k, k ≤ buf.length →
      (List.range k).foldl (fun b i => b.set i (Nat.xor (b.getD i 0) (key.getD i 0))) buf =
        List.zipWith Nat.xor (buf.take k) (key.take k) ++ buf.drop k by
    have hfull := h buf.length (le_refl _)
    rw [xorLoop, hfull, List.take_of_length_le (le_refl _), List.take_of_length_le (by omega),
      List.drop_of_length_le (le_refl _), List.append_nil]
  intro k hk
  induction k with
  | zero => simp
  | succ k ih =>
    rw [List.range_succ, List.foldl_append, ih (by omega)]
    simp only [List.foldl_cons, List.foldl_nil]
    have hzlen : (List.zipWith Nat.xor (buf.take k) (key.take k)).length = k := by
      simp only [List.length_zipWith, List.length_take]
      omega
    have hklt : k < buf.length := by omega
    have hklt' : k < key.length := by omega
    have hgd : (List.zipWith Nat.xor (buf.take k) (key.take k) ++ buf.drop k).getD k 0 =
        buf[k] := by
      rw [List.getD_append_right _ _ _ _ (by omega), hzlen, Nat.sub_self,
        List.getD_eq_getElem?_getD, List.getElem?_drop, Nat.add_zero,
        List.getElem?_eq_getElem hklt]
      rfl
    rw [hgd]
    have hdropk : buf.drop k = buf[k] :: buf.drop (k + 1) := List.drop_eq_getElem_cons hklt
    rw [hdropk, List.set_append_right _ _ (by omega), hzlen, Nat.sub_self, List.set_cons_zero]
    rw [List.take_succ, List.take_succ,
      List.zipWith_append _ _ _ _ _ (by simp only [List.length_take]; omega)]
    rw [List.getElem?_eq_getElem hklt, List.getElem?_eq_getElem hklt']
    have : key.getD k 0 = key[k] := by
      rw [List.getD_eq_getElem?_getD, List.getElem?_eq_getElem hklt']
      rfl
    rw [this]
    simp

/-- XOR with a fixed word list is an involution. -/
theorem zipWith_xor_cancel (a b : List Nat) (hlen : a.length = b.length) :
    List.zipWith Nat.xor (List.zipWith Nat.xor a b) b = a := by
  induction a generalizing b with
  | nil => simp
  | cons x a ih =>
    cases b with
    | nil => simp at hlen
    | cons y b =>
      have hxc : Nat.xor (Nat.xor x y) y = x := Nat.xor_cancel_right y x
      simp only [List.zipWith_cons_cons, hxc]
      exact congrArg _ (ih b (by simpa using hlen))

theorem zipWith_xor_lt (n : Nat) (a b : List Nat) (ha : ∀ x ∈ a, x < 2 ^ n)
    (hb : ∀ x ∈ b, x < 2 ^ n) :
    ∀ x ∈ List.zipWith Nat.xor a b, x < 2 ^ n := by
  induction a generalizing b with
  | nil => simp
  | cons x a ih =>
    cases b with
    | nil => simp
    | cons y b =>
      intro z hz
      rcases List.mem_cons.mp hz with rfl | hmem
      · exact xor_lt_two_pow (ha x (by simp)) (hb y (by simp))
      · exact ih b (fun u hu => ha u (by simp [hu])) (fun u hu => hb u (by simp [hu])) z hmem

/-! ## Shared facts about `Key::subkey` -/

/-- When `L` words fit in the key, `subkey` succeeds with a window of
exactly `L` words, word `i` being the `ws` key bytes at word position
`word_offset % (key_elements - L + 1) + i`. -/
theorem subkey_some (key : List Nat) (ws L O : Nat) (hws : 0 < ws)
    (hL : L ≤ key.length / ws) :
    ∃ w, Key.subkey key ws L O = some w ∧ w.length = L ∧
      (O % (key.length / ws - L + 1) + L) * ws ≤ key.length ∧
      ∀ i, i < L → w.getD i 0 =
        fromLEBytes ((key.drop ((O % (key.length / ws - L + 1) + i) * ws)).take ws) := by
  have hmax : (key.length / ws + 1) - L = key.length / ws - L + 1 := by omega
  have hoff : O % (key.length / ws - L + 1) + L ≤ key.length / ws := by
    have := Nat.mod_lt O (y := key.length / ws - L + 1) (by omega)
    omega
  have hbytes : (O % (key.length / ws - L + 1) + L) * ws ≤ key.length := by
    calc (O % (key.length / ws - L + 1) + L) * ws
        ≤ (key.length / ws) * ws := Nat.mul_le_mul_right ws hoff
      _ ≤ key.length := Nat.div_mul_le_self key.length ws
  have hsub : Key.subkey key ws L O =
      some ((wordsOfBytes ws (key.drop (O % (key.length / ws + 1 - L) * ws))).take L) := by
    rw [Key.subkey, Key.check_element_length]
    simp only [gt_iff_lt]
    rw [if_neg (by omega : ¬ key.length / ws < L)]
  rw [hmax] at hsub
  refine ⟨_, hsub, ?_, hbytes, ?_⟩
  · rw [List.length_take, wordsOfBytes_length, List.length_drop]
    have hrem : L * ws ≤ key.length - O % (key.length / ws - L + 1) * ws := by
      have h1 : (O % (key.length / ws - L + 1) + L) * ws =
          O % (key.length / ws - L + 1) * ws + L * ws := by ring
      omega
    have : L ≤ (key.length - O % (key.length / ws - L + 1) * ws) / ws :=
      (Nat.le_div_iff_mul_le hws).mpr hrem
    omega
  · intro i hi
    rw [List.getD_eq_getElem?_getD, List.getElem?_take, if_pos hi,
      ← List.getD_eq_getElem?_getD]
    have hiws : (i + 1) * ws ≤ (key.drop (O % (key.length / ws - L + 1) * ws)).length := by
      rw [List.length_drop]
      have h1 : (O % (key.length / ws - L + 1) + L) * ws =
          O % (key.length / ws - L + 1) * ws + L * ws := by ring
      have h2 : (i + 1) * ws ≤ L * ws := Nat.mul_le_mul_right ws (by omega)
      omega
    rw [wordsOfBytes_getD ws _ i hws hiws, List.drop_drop]
    have : O % (key.length / ws - L + 1) * ws + i * ws =
        (O % (key.length / ws - L + 1) + i) * ws := by ring
    rw [this]

/-- Whenever `subkey` returns a window, it has exactly `L` elements. -/
theorem subkey_length (key : List Nat) (ws L O : Nat) (w : List Nat)
    (h : Key.subkey key ws L O = some w) : w.length = L := by
  by_cases hws : 0 < ws
  · by_cases hL : L ≤ key.length / ws
    · obtain ⟨w', hw', hlen, _, _⟩ := subkey_some key ws L O hws hL
      rw [hw'] at h
      have hww : w' = w := Option.some.inj h
      rw [← hww]
      exact hlen
    · rw [Key.subkey, Key.check_element_length] at h
      rw [if_pos (show L > key.length / ws by omega)] at h
      exact Option.noConfusion h
  · have hws0 : ws = 0 := by omega
    subst hws0
    rw [Key.subkey, Key.check_element_length] at h
    by_cases hL0 : 0 < L
    · rw [Nat.div_zero, if_pos (show L > 0 from hL0)] at h
      exact Option.noConfusion h
    · have hL0' : L = 0 := by omega
      subst hL0'
      rw [Nat.div_zero, if_neg (show ¬ (0:Nat) > 0 by omega)] at h
      have hww := Option.some.inj h
      rw [← hww]
      rfl

/-- Words of the returned window are genuine `ws`-byte words when the key
holds bytes. -/
theorem subkey_words_lt (key : List Nat) (ws L O : Nat) (w : List Nat)
    (hkey : ∀ b ∈ key, b < 256) (h : Key.subkey key ws L O = some w) :
    ∀ x ∈ w, x < 2 ^ (8 * ws) := by
  rw [Key.subkey, Key.check_element_length] at h
  by_cases hL : key.length / ws < L
  · rw [if_pos (show L > key.length / ws from hL)] at h
    exact Option.noConfusion h
  · rw [if_neg (show ¬ L > key.length / ws from hL)] at h
    have hww := Option.some.inj h
    intro x hx
    rw [← hww] at hx
    have hx' := List.mem_of_mem_take hx
    exact wordsOfBytes_lt ws _ (fun b hb => hkey b (List.mem_of_mem_drop hb)) x hx'

/-! ## Byte-level facts about `hash` -/

theorem byteAt_fromLEBytes (bs : List Nat) (i : Nat) (hb : ∀ b ∈ bs, b < 256)
    (hi : i < bs.length) :
    byteAt (fromLEBytes bs) i = bs.getD i 0 := by
  induction bs generalizing i with
  | nil => simp at hi
  | cons b bs ih =>
    have hblt : b < 256 := hb b (by simp)
    cases i with
    | zero =>
      simp only [fromLEBytes, byteAt, pow_zero, Nat.div_one, List.getD_cons_zero]
      omega
    | succ i =>
      simp only [fromLEBytes, byteAt, List.getD_cons_succ]
      have hdiv : (b + 256 * fromLEBytes bs) / 256 ^ (i + 1) = fromLEBytes bs / 256 ^ i := by
        rw [pow_succ, Nat.mul_comm (256 ^ i) 256, ← Nat.div_div_eq_div_mul]
        congr 1
        omega
      rw [hdiv]
      exact ih i (fun x hx => hb x (by simp [hx])) (by simpa using hi)

theorem toLEBytes_getD (n v i : Nat) (hi : i < n) :
    (toLEBytes n v).getD i 0 = byteAt v i := by
  induction n generalizing v i with
  | zero => omega
  | succ n ih =>
    cases i with
    | zero =>
      simp [toLEBytes, byteAt]
    | succ i =>
      simp only [toLEBytes, List.getD_cons_succ]
      rw [ih (v / 256) i (by omega)]
      simp only [byteAt]
      rw [pow_succ, Nat.mul_comm (256 ^ i) 256, ← Nat.div_div_eq_div_mul]

set_option maxRecDepth 100000 in
theorem sbox_lt (b : Nat) : sbox b < 256 := by
  by_cases hb : b < 256
  · have : ∀ x, x < 256 → sbox x < 256 := by decide
    exact this b hb
  · rw [sbox, List.getD_eq_default]
    · omega
    · have : S_BOX.length = 256 := by rfl
      omega

set_option maxRecDepth 100000 in
theorem invSbox_sbox (b : Nat) (hb : b < 256) : invSbox (sbox b) = b := by
  revert hb
  revert b
  decide

theorem sbox_inj (a b : Nat) (ha : a < 256) (hb : b < 256) (h : sbox a = sbox b) : a = b := by
  have := invSbox_sbox a ha
  rw [h, invSbox_sbox b hb] at this
  omega

theorem map_sbox_inj (l1 l2 : List Nat) (h1 : ∀ b ∈ l1, b < 256) (h2 : ∀ b ∈ l2, b < 256)
    (h : l1.map sbox = l2.map sbox) : l1 = l2 := by
  induction l1 generalizing l2 with
  | nil =>
    cases l2 with
    | nil => rfl
    | cons y l2 => simp at h
  | cons x l1 ih =>
    cases l2 with
    | nil => simp at h
    | cons y l2 =>
      simp only [List.map_cons, List.cons.injEq] at h
      have hx : x = y := sbox_inj x y (h1 x (by simp)) (h2 y (by simp)) h.1
      rw [hx, ih l2 (fun b hb => h1 b (by simp [hb])) (fun b hb => h2 b (by simp [hb])) h.2]

/-! ## Shape of `cipher_block` runs -/

/-- When both configuration checks pass and the subkey exists, the call
completes, XORing the subkey into the word view and keeping the tail. -/
theorem cipher_block_some (c : GenericCipher) (L A ws index : Nat) (block : List Nat)
    (sub : List Nat) (hL : block.length / ws = L) (hA : A ≤ ws)
    (hsub : Key.subkey c.key ws L (c.hash (Nat.xor index c.index_key)) = some sub) :
    cipher_block c L A ws index block =
      (true, bytesOfWords ws (List.zipWith Nat.xor (wordsOfBytes ws block) sub)
        ++ block.drop (ws * L)) := by
  unfold cipher_block
  rw [if_neg (show ¬ block.length / ws ≠ L by omega),
    if_neg (show ¬ ¬ A ≤ ws from not_not_intro hA), hsub]
  show (true, bytesOfWords ws (xorLoop (wordsOfBytes ws block) sub)
      ++ block.drop (ws * (block.length / ws))) = _
  have hbuf : (wordsOfBytes ws block).length = L := by rw [wordsOfBytes_length, hL]
  have hsublen : sub.length = L := subkey_length _ _ _ _ _ hsub
  rw [xorLoop_eq_zipWith _ _ (by rw [hbuf, hsublen]), hL]

/-! ## The claims -/

/-- C10: for every length `N` and every byte array `b` of length `N`,
`Key::new(b)` succeeds with no failure path (despite its doc comment
mentioning a panic, the body is just `Self(key)`), and the constructed
key's underlying bytes are exactly `b`. -/
theorem C10_key_new_identity : ∀ b : List Nat, Key.new b = b :=
  fun _ => rfl

/-- C8: the packed indexed-block type of the 248-byte-payload
configuration (`#[repr(C, align(8))] struct IndexedBlock { index: u64,
data: [u64; 31] }`) has total size 256 bytes and alignment 8 bytes under
the C representation layout rules. -/
theorem C8_indexed_block_layout : reprCLayout IndexedBlock.fields 8 = (256, 8) := by
  decide

/-- C6: `subkey::<W, L>` fails fatally exactly when `L > key_elements`
(`= N / size_of::<W>()`); in particular for `L = 0` it never fails and
returns the empty window for every offset. -/
theorem C6_subkey_failure :
    (∀ (key : List Nat) (ws L O : Nat),
      Key.subkey key ws L O = none ↔ L > key.length / ws) ∧
    (∀ (key : List Nat) (ws O : Nat), Key.subkey key ws 0 O = some []) := by
  constructor
  · intro key ws L O
    rw [Key.subkey, Key.check_element_length]
    by_cases hL : L > key.length / ws
    · rw [if_pos hL]
      show (none : Option (List Nat)) = none ↔ _
      simpa using hL
    · rw [if_neg hL]
      show some _ = none ↔ _
      simp only [hL, iff_false]
      exact Option.some_ne_none _
  · intro key ws O
    rw [Key.subkey, Key.check_element_length]
    rw [if_neg (show ¬ (0:Nat) > key.length / ws from Nat.not_lt_zero _)]
    rfl

/-- Concrete run of the C6 theorem: a 4-byte key with 16-bit words holds
2 elements, so a 3-element window fails and the empty window succeeds. -/
theorem C6_subkey_failure_witness :
    Key.subkey [1, 2, 3, 4] 2 3 0 = none ∧ Key.subkey [1, 2, 3, 4] 2 0 7 = some [] :=
  ⟨(C6_subkey_failure.1 [1, 2, 3, 4] 2 3 0).mpr (by decide),
   C6_subkey_failure.2 [1, 2, 3, 4] 2 7⟩

/-- C2: for every word type (size `ws > 0`), every `L ≤ key_elements`
(`= N / ws`) and every offset `O`, `subkey` returns exactly `L` contiguous
key elements starting at element position `O % max_index` with
`max_index = key_elements - L + 1`, and never reads outside the `N`-byte
key buffer (`(start + L) * ws ≤ N`); and for a 32-byte key valued `0..31`,
`subkey::<u32, 1>(i)` for `i` in `0..32` returns the word at byte offset
`(i*4) % 32`. -/
theorem C2_subkey_windowing :
    (∀ (key : List Nat) (ws L O : Nat), 0 < ws → L ≤ key.length / ws →
      ∃ w, Key.subkey key ws L O = some w ∧ w.length = L ∧
        (O % (key.length / ws - L + 1) + L) * ws ≤ key.length ∧
        ∀ i, i < L → w.getD i 0 =
          fromLEBytes ((key.drop ((O % (key.length / ws - L + 1) + i) * ws)).take ws)) ∧
    (∀ i, i < 32 → Key.subkey (List.range 32) 4 1 i =
      some [fromLEBytes (((List.range 32).drop (i * 4 % 32)).take 4)]) := by
  constructor
  · intro key ws L O hws hL
    exact subkey_some key ws L O hws hL
  · decide

/-- Concrete run of the C2 theorem on a 4-byte key with 16-bit words. -/
theorem C2_subkey_windowing_witness :
    0 < 2 ∧ 1 ≤ ([10, 11, 12, 13] : List Nat).length / 2 ∧
      ∃ w, Key.subkey [10, 11, 12, 13] 2 1 5 = some w ∧ w.length = 1 ∧
        (5 % (([10, 11, 12, 13] : List Nat).length / 2 - 1 + 1) + 1) * 2 ≤
          ([10, 11, 12, 13] : List Nat).length ∧
        ∀ i, i < 1 → w.getD i 0 =
          fromLEBytes ((([10, 11, 12, 13] : List Nat).drop
            ((5 % (([10, 11, 12, 13] : List Nat).length / 2 - 1 + 1) + i) * 2)).take 2) :=
  ⟨by decide, by decide, C2_subkey_windowing.1 [10, 11, 12, 13] 2 1 5 (by decide) (by decide)⟩

/-- C7: the index hash is a total function on 64-bit indices producing a
same-width (64-bit) output whose byte `i` is the fixed 256-entry table's
entry for byte `i` of the input, for each of the 8 constituent bytes. -/
theorem C7_hash_bytewise :
    ∀ index : Nat, index < 2 ^ 64 →
      hash64 index < 2 ^ 64 ∧ ∀ i, i < 8 → byteAt (hash64 index) i = sbox (byteAt index i) := by
  intro index _
  have hlen : ((toLEBytes 8 index).map sbox).length = 8 := by
    rw [List.length_map, toLEBytes_length]
  have hbytes : ∀ b ∈ (toLEBytes 8 index).map sbox, b < 256 := by
    intro b hb
    obtain ⟨x, _, rfl⟩ := List.mem_map.mp hb
    exact sbox_lt x
  constructor
  · have hb := fromLEBytes_lt _ hbytes
    rw [hlen] at hb
    rw [hash64]
    rw [← (by norm_num : (2 : Nat) ^ (8 * 8) = 2 ^ 64)]
    exact hb
  · intro i hi
    rw [hash64, byteAt_fromLEBytes _ i hbytes (by omega)]
    rw [List.getD_eq_getElem?_getD, List.getElem?_map,
      List.getElem?_eq_getElem (show i < (toLEBytes 8 index).length by simpa using hi)]
    simp only [Option.map_some', Option.getD_some]
    congr 1
    rw [← toLEBytes_getD 8 index i hi, List.getD_eq_getElem?_getD,
      List.getElem?_eq_getElem (show i < (toLEBytes 8 index).length by simpa using hi)]
    rfl

/-- Concrete run of the C7 theorem at index 3. -/
theorem C7_hash_bytewise_witness :
    (3 : Nat) < 2 ^ 64 ∧ hash64 3 < 2 ^ 64 ∧
      ∀ i, i < 8 → byteAt (hash64 3) i = sbox (byteAt 3 i) :=
  ⟨by decide, (C7_hash_bytewise 3 (by decide)).1, (C7_hash_bytewise 3 (by decide)).2⟩

set_option maxRecDepth 1000000 in
/-- C9: the substitution table is a permutation of the 256 byte values
(no duplicates, every byte value present), and consequently the 64-bit
index hash is injective: distinct 64-bit indices hash to distinct
outputs. -/
theorem C9_hash_injective :
    S_BOX.Nodup ∧ (∀ b, b < 256 → b ∈ S_BOX) ∧
    ∀ x y, x < 2 ^ 64 → y < 2 ^ 64 → hash64 x = hash64 y → x = y := by
  refine ⟨by decide, by decide, ?_⟩
  intro x y hx hy h
  have hpow : (2 : Nat) ^ (8 * 8) = 2 ^ 64 := by norm_num
  have hmaplen : ∀ v : Nat, ((toLEBytes 8 v).map sbox).length = 8 := by
    intro v
    rw [List.length_map, toLEBytes_length]
  have hmapbytes : ∀ v : Nat, ∀ b ∈ (toLEBytes 8 v).map sbox, b < 256 := by
    intro v b hb
    obtain ⟨z, _, rfl⟩ := List.mem_map.mp hb
    exact sbox_lt z
  have h2 := congrArg (toLEBytes 8) h
  rw [hash64, hash64, toLEBytes_fromLEBytes' 8 _ (hmaplen x) (hmapbytes x),
    toLEBytes_fromLEBytes' 8 _ (hmaplen y) (hmapbytes y)] at h2
  have h3 : toLEBytes 8 x = toLEBytes 8 y :=
    map_sbox_inj _ _ (toLEBytes_lt 8 x) (toLEBytes_lt 8 y) h2
  have h4 := congrArg fromLEBytes h3
  rw [fromLEBytes_toLEBytes 8 x (by rw [hpow]; exact hx),
    fromLEBytes_toLEBytes 8 y (by rw [hpow]; exact hy)] at h4
  exact h4

/-- Concrete run of the C9 theorem: the hash is cancellable at 5. -/
theorem C9_hash_injective_witness :
    (5 : Nat) < 2 ^ 64 ∧ hash64 5 = hash64 5 ∧ (5 : Nat) = 5 :=
  ⟨by decide, rfl, C9_hash_injective.2.2 5 5 (by decide) (by decide) rfl⟩

/-- C3: a correctly configured `cipher_block` computes
`masked = index XOR index_offset` (the XOR of the secret offset precedes
hashing), `h = hash(masked)`, `offset = h.to_usize()`,
`subkey = key.subkey::<W, L>(offset)`, and finally `block[i] ^= subkey[i]`
for each of the `L` words of the block. -/
theorem C3_cipher_pipeline (c : GenericCipher) (L A ws index : Nat) (block : List Nat)
    (hws : 0 < ws) (hL : block.length / ws = L) (hA : A ≤ ws)
    (hkey : L ≤ c.key.length / ws) :
    ∃ sub, Key.subkey c.key ws L (c.hash (Nat.xor index c.index_key)) = some sub ∧
      sub.length = L ∧
      cipher_block c L A ws index block =
        (true, bytesOfWords ws (List.zipWith Nat.xor (wordsOfBytes ws block) sub)
          ++ block.drop (ws * L)) ∧
      ∀ i, i < L → (List.zipWith Nat.xor (wordsOfBytes ws block) sub).getD i 0 =
        Nat.xor ((wordsOfBytes ws block).getD i 0) (sub.getD i 0) := by
  obtain ⟨sub, hsub, hlen, _, _⟩ :=
    subkey_some c.key ws L (c.hash (Nat.xor index c.index_key)) hws hkey
  refine ⟨sub, hsub, hlen, cipher_block_some c L A ws index block sub hL hA hsub, ?_⟩
  intro i hi
  have hbuf : (wordsOfBytes ws block).length = L := by rw [wordsOfBytes_length, hL]
  have hzlen : (List.zipWith Nat.xor (wordsOfBytes ws block) sub).length = L := by
    rw [List.length_zipWith, hbuf, hlen]
    exact min_self L
  have h1 : i < (List.zipWith Nat.xor (wordsOfBytes ws block) sub).length := by omega
  have h2 : i < (wordsOfBytes ws block).length := by omega
  have h3 : i < sub.length := by omega
  rw [List.getD_eq_getElem?_getD, List.getElem?_eq_getElem h1,
    List.getD_eq_getElem?_getD, List.getElem?_eq_getElem h2,
    List.getD_eq_getElem?_getD, List.getElem?_eq_getElem h3]
  simp only [Option.getD_some]
  exact List.getElem_zipWith

/-- Concrete run of the C3 theorem. -/
theorem C3_cipher_pipeline_witness :
    0 < 2 ∧ ([9, 8, 7, 6] : List Nat).length / 2 = 2 ∧ 2 ≤ 2 ∧
      2 ≤ exCipher.key.length / 2 ∧
      ∃ sub, Key.subkey exCipher.key 2 2 (exCipher.hash (Nat.xor 3 exCipher.index_key)) =
          some sub ∧
        sub.length = 2 ∧
        cipher_block exCipher 2 2 2 3 [9, 8, 7, 6] =
          (true, bytesOfWords 2 (List.zipWith Nat.xor (wordsOfBytes 2 [9, 8, 7, 6]) sub)
            ++ ([9, 8, 7, 6] : List Nat).drop (2 * 2)) ∧
        ∀ i, i < 2 → (List.zipWith Nat.xor (wordsOfBytes 2 [9, 8, 7, 6]) sub).getD i 0 =
          Nat.xor ((wordsOfBytes 2 [9, 8, 7, 6]).getD i 0) (sub.getD i 0) :=
  ⟨by decide, by decide, by decide, by decide,
   C3_cipher_pipeline exCipher 2 2 2 3 [9, 8, 7, 6]
     (by decide) (by decide) (by decide) (by decide)⟩

/-- C4: once the structural configuration is right (`L = BLOCK_BYTES / size_of(W)`,
`align_of(W) ≥ A`, subkey no longer than the key), `cipher_block` completes for
every index, index offset, key material and block contents: no
data-dependent failure exists. -/
theorem C4_no_data_dependent_failure (c : GenericCipher) (L A ws index : Nat)
    (block : List Nat) (hws : 0 < ws) (hL : block.length / ws = L) (hA : A ≤ ws)
    (hkey : L ≤ c.key.length / ws) :
    (cipher_block c L A ws index block).1 = true := by
  obtain ⟨sub, hsub, _, _, _⟩ :=
    subkey_some c.key ws L (c.hash (Nat.xor index c.index_key)) hws hkey
  rw [cipher_block_some c L A ws index block sub hL hA hsub]

/-- Concrete run of the C4 theorem. -/
theorem C4_no_data_dependent_failure_witness :
    0 < 2 ∧ ([9, 8, 7, 6] : List Nat).length / 2 = 2 ∧ 2 ≤ 2 ∧
      2 ≤ exCipher.key.length / 2 ∧
      (cipher_block exCipher 2 2 2 3 [9, 8, 7, 6]).1 = true :=
  ⟨by decide, by decide, by decide, by decide,
   C4_no_data_dependent_failure exCipher 2 2 2 3 [9, 8, 7, 6]
     (by decide) (by decide) (by decide) (by decide)⟩

/-- C5: every `cipher_block` call either fails with the block entirely
untouched (all validation precedes mutation) or succeeds with the block
fully transformed — never partially XORed. -/
theorem C5_atomicity (c : GenericCipher) (L A ws index : Nat) (block : List Nat) :
    ((cipher_block c L A ws index block).1 = false ∧
      (cipher_block c L A ws index block).2 = block) ∨
    ((cipher_block c L A ws index block).1 = true ∧
      ∃ sub, Key.subkey c.key ws L (c.hash (Nat.xor index c.index_key)) = some sub ∧
        (cipher_block c L A ws index block).2 =
          bytesOfWords ws (List.zipWith Nat.xor (wordsOfBytes ws block) sub)
            ++ block.drop (ws * (block.length / ws))) := by
  by_cases h1 : block.length / ws ≠ L
  · left
    have h : cipher_block c L A ws index block = (false, block) := by
      unfold cipher_block
      rw [if_pos h1]
    rw [h]
    exact ⟨rfl, rfl⟩
  · by_cases h2 : ¬ A ≤ ws
    · left
      have h : cipher_block c L A ws index block = (false, block) := by
        unfold cipher_block
        rw [if_neg h1, if_pos h2]
      rw [h]
      exact ⟨rfl, rfl⟩
    · cases hsub : Key.subkey c.key ws L (c.hash (Nat.xor index c.index_key)) with
      | none =>
        left
        have h : cipher_block c L A ws index block = (false, block) := by
          unfold cipher_block
          rw [if_neg h1, if_neg h2, hsub]
        rw [h]
        exact ⟨rfl, rfl⟩
      | some sub =>
        right
        have hL : block.length / ws = L := not_not.mp h1
        have h := cipher_block_some c L A ws index block sub hL (not_not.mp h2) hsub
        rw [h]
        exact ⟨rfl, sub, rfl, by rw [hL]⟩

/-- C1: applying `cipher_block` twice with identical key material, index
offset and index restores the block: encryption and decryption are the
same call. -/
theorem C1_involution (c : GenericCipher) (L A ws index : Nat) (block : List Nat)
    (hws : 0 < ws) (hL : block.length / ws = L) (hA : A ≤ ws)
    (hkey : L ≤ c.key.length / ws)
    (hblock : ∀ b ∈ block, b < 256) (hkeybytes : ∀ b ∈ c.key, b < 256) :
    (cipher_block c L A ws index (cipher_block c L A ws index block).2).2 = block := by
  obtain ⟨sub, hsub, hsublen, _, _⟩ :=
    subkey_some c.key ws L (c.hash (Nat.xor index c.index_key)) hws hkey
  have h1 := cipher_block_some c L A ws index block sub hL hA hsub
  have hbuf : (wordsOfBytes ws block).length = L := by rw [wordsOfBytes_length, hL]
  have hzlen : (List.zipWith Nat.xor (wordsOfBytes ws block) sub).length = L := by
    rw [List.length_zipWith, hbuf, hsublen]
    exact min_self L
  have hLws : ws * L = ws * (block.length / ws) := by rw [hL]
  have hwsL : ws * L ≤ block.length := by
    calc ws * L = block.length / ws * ws := by rw [← hL, Nat.mul_comm]
      _ ≤ block.length := Nat.div_mul_le_self block.length ws
  have hmod := Nat.mod_add_div block.length ws
  have hmlt : block.length % ws < ws := Nat.mod_lt _ hws
  have htail : (block.drop (ws * L)).length < ws := by
    rw [List.length_drop]
    omega
  have hw0lt : ∀ x ∈ wordsOfBytes ws block, x < 2 ^ (8 * ws) :=
    wordsOfBytes_lt ws block hblock
  have hsublt : ∀ x ∈ sub, x < 2 ^ (8 * ws) :=
    subkey_words_lt c.key ws L _ sub hkeybytes hsub
  have hzlt := zipWith_xor_lt (8 * ws) _ _ hw0lt hsublt
  have hb1len : (bytesOfWords ws (List.zipWith Nat.xor (wordsOfBytes ws block) sub)
      ++ block.drop (ws * L)).length = block.length := by
    rw [List.length_append, bytesOfWords_length, hzlen, List.length_drop]
    have hcomm : L * ws = ws * L := Nat.mul_comm L ws
    omega
  have hb1L : (bytesOfWords ws (List.zipWith Nat.xor (wordsOfBytes ws block) sub)
      ++ block.drop (ws * L)).length / ws = L := by rw [hb1len, hL]
  have h2 := cipher_block_some c L A ws index
    (bytesOfWords ws (List.zipWith Nat.xor (wordsOfBytes ws block) sub)
      ++ block.drop (ws * L)) sub hb1L hA hsub
  rw [h1]
  show (cipher_block c L A ws index
    (bytesOfWords ws (List.zipWith Nat.xor (wordsOfBytes ws block) sub)
      ++ block.drop (ws * L))).2 = block
  rw [h2]
  show bytesOfWords ws (List.zipWith Nat.xor
      (wordsOfBytes ws (bytesOfWords ws (List.zipWith Nat.xor (wordsOfBytes ws block) sub)
        ++ block.drop (ws * L))) sub)
    ++ (bytesOfWords ws (List.zipWith Nat.xor (wordsOfBytes ws block) sub)
        ++ block.drop (ws * L)).drop (ws * L) = block
  rw [wordsOfBytes_bytesOfWords ws _ (block.drop (ws * L)) hws hzlt htail]
  rw [List.drop_left' (show (bytesOfWords ws (List.zipWith Nat.xor (wordsOfBytes ws block)
    sub)).length = ws * L by rw [bytesOfWords_length, hzlen, Nat.mul_comm])]
  rw [zipWith_xor_cancel _ _ (by rw [hbuf, hsublen])]
  have hfin := bytesOfWords_wordsOfBytes ws block hblock
  rw [hLws]
  exact hfin

/-- Concrete run of the C1 theorem: a 5-byte block (two 2-byte words plus
a trailing byte) comes back after two identical calls. -/
theorem C1_involution_witness :
    0 < 2 ∧ ([9, 8, 7, 6, 5] : List Nat).length / 2 = 2 ∧ 2 ≤ 2 ∧
      2 ≤ exCipher.key.length / 2 ∧
      (∀ b ∈ ([9, 8, 7, 6, 5] : List Nat), b < 256) ∧
      (∀ b ∈ exCipher.key, b < 256) ∧
      (cipher_block exCipher 2 2 2 3
        (cipher_block exCipher 2 2 2 3 [9, 8, 7, 6, 5]).2).2 = [9, 8, 7, 6, 5] :=
  ⟨by decide, by decide, by decide, by decide, by decide, by decide,
   C1_involution exCipher 2 2 2 3 [9, 8, 7, 6, 5]
     (by decide) (by decide) (by decide) (by decide) (by decide) (by decide)⟩

end Encryption
